import Mathlib

/-!
# Verification of the Wine tools string-array library (`tools/tools.h`)

Shallow embedding of the string-array helpers from `tools/tools.h`:
`strarray_add`, `strarray_addall`, `strarray_exists`, `strarray_add_uniq`,
`strarray_addall_uniq`, `strarray_fromstring`, `strarray_tostring`,
`strarray_bsearch`, and the `strmake` retry loop.

Two views of the code are used:

* A functional (value) model `strarray`, where the backing buffer is
  represented by the list of its `count` used entries.  This is adequate for
  all claims that do not involve pointer aliasing or buffer reallocation
  identity.

* A heap model (`Store`, `strarrayH`) with explicit buffer identifiers, used
  for claims about in-place mutation, freshness of allocations and
  reallocation (`xrealloc`) behaviour.  `xrealloc` is modelled as the C
  abstract machine allows: the old block is freed and the contents move to a
  fresh block; any later access through the old block is undefined behaviour
  and is represented by `none`.

Machine integers (`unsigned int` counts and sizes) are modelled as `Nat`:
no claim exercises counts anywhere near `2^32`, where wrap-around would
matter.
-/

namespace WineTools

/-- The value model of `struct strarray`: `count` strings in use, `size`
total allocated capacity, and `str` the list of the `count` used entries of
the backing buffer (in buffer order). -/
structure strarray where
  count : Nat
  size : Nat
  str : List String
  deriving Repr, DecidableEq

/-- `static const struct strarray empty_strarray;` — zero-initialised. -/
def empty_strarray : strarray := ⟨0, 0, []⟩

/-- `strarray_add`: if `count == size`, the capacity doubles (16 when it was
0) before appending; then the string is stored at index `count` and `count`
is incremented. -/
def strarray_add (a : strarray) (s : String) : strarray :=
  let size' := if a.count = a.size then (if a.size = 0 then 16 else a.size * 2) else a.size
  { count := a.count + 1, size := size', str := a.str ++ [s] }

/-- `strarray_addall`: `for (i = 0; i < added.count; i++) strarray_add(array, added.str[i]);`
(`added` is passed by value, so the iteration bound and element list are a
snapshot). -/
def strarray_addall (a : strarray) (added : strarray) : strarray :=
  added.str.foldl strarray_add a

/-- `strarray_exists`: linear scan comparing each used entry with `strcmp`. -/
def strarray_exists (a : strarray) (s : String) : Bool :=
  a.str.any (fun t => t == s)

/-- `strarray_add_uniq`: append only when no existing entry matches. -/
def strarray_add_uniq (a : strarray) (s : String) : strarray :=
  if strarray_exists a s then a else strarray_add a s

/-- `strarray_addall_uniq`: `strarray_add_uniq` for each element of `added`
in order. -/
def strarray_addall_uniq (a : strarray) (added : strarray) : strarray :=
  added.str.foldl strarray_add_uniq a

/-- The token stream produced by the `strtok` loop of `strarray_fromstring`:
maximal runs of non-delimiter characters, in order.  `acc` holds the
(reversed) characters of the token currently being read. -/
def strtokToks (delims : List Char) : List Char → List Char → List (List Char)
  | [], acc => if acc.isEmpty then [] else [acc.reverse]
  | c :: cs, acc =>
    if c ∈ delims then
      if acc.isEmpty then strtokToks delims cs []
      else acc.reverse :: strtokToks delims cs []
    else strtokToks delims cs (c :: acc)

/-- `strarray_fromstring`: `strarray_add` each `strtok` token (each token is
an `xstrdup`-ed copy) to a fresh `empty_strarray`. -/
def strarray_fromstring (s : String) (delim : String) : strarray :=
  (strtokToks delim.toList s.toList []).foldl
    (fun a tok => strarray_add a (String.mk tok)) empty_strarray

/-- `strarray_tostring`: `""` (freshly allocated) for an empty array;
otherwise `str[0]` followed by `sep ++ str[i]` for `i = 1 .. count-1`.
(The `count ≠ 0` but empty-buffer case is unreachable for well-formed
arrays; the C code would read out of bounds there.) -/
def strarray_tostring (a : strarray) (sep : String) : String :=
  if a.count = 0 then ""
  else (a.str.drop 1).foldl (fun acc s => acc ++ sep ++ s) (a.str.headD "")

/-- The `bsearch(3)` halving loop over the buffer slice `[lo, hi)`, with the
comparator applied as `cmp key element`.  The `fuel` argument is a
structural bound on the number of iterations; since `hi - lo` shrinks
strictly at every step, any `fuel ≥ hi - lo` gives the exact semantics of
the C loop. -/
def bsearchGo (cmp : String → String → Int) (key : String) (l : List String) :
    Nat → Nat → Nat → Option String
  | 0, _, _ => none
  | fuel + 1, lo, hi =>
    if lo < hi then
      let mid := (lo + hi) / 2
      let x := l.getD mid ""
      let c := cmp key x
      if c < 0 then bsearchGo cmp key l fuel lo mid
      else if 0 < c then bsearchGo cmp key l fuel (mid + 1) hi
      else some x
    else none

/-- `strarray_bsearch`: `bsearch` over the `count` used entries when the
array is non-empty, `NULL` (`none`) otherwise. -/
def strarray_bsearch (a : strarray) (key : String) (cmp : String → String → Int) :
    Option String :=
  if a.count ≠ 0 then bsearchGo cmp key a.str a.count 0 a.count else none

/-- The `strmake` retry loop.  The formatting engine (`vsnprintf`, external
to the repository) is abstracted as `vsn : Nat → Int`, giving the value
returned for a buffer of a given size; `out` is the full rendered output.
The loop: on `-1` the buffer size doubles; on a reported length `n ≥ size`
the size becomes `n + 1`; otherwise the buffer holds the full output and is
returned.  `fuel` bounds the number of iterations (the claim is that some
finite fuel suffices). -/
def strmakeLoop (vsn : Nat → Int) (out : String) : Nat → Nat → Option String
  | 0, _ => none
  | fuel + 1, size =>
    let n := vsn size
    if n = -1 then strmakeLoop vsn out fuel (size * 2)
    else if size ≤ n.toNat then strmakeLoop vsn out fuel (n.toNat + 1)
    else some out

/-- Modelled from the spec: `vsnprintf` is not part of this repository.  A
formatting engine that "produces a finite output" `out` either reports the
needed length `out.length` (C99 behaviour), or signals failure with `-1`
but only when the buffer is too small to hold the output and its
terminator (historical behaviour). -/
def vsnprintfModel (vsn : Nat → Int) (out : String) : Prop :=
  ∀ size : Nat, vsn size = (out.length : Int) ∨ (vsn size = -1 ∧ size ≤ out.length)

/-! ## Heap model

For the claims about in-place mutation and about self-append, the value
model is too coarse: `strarray_add` takes a pointer and `strarray_addall`
receives `added` by value while `added.str` still aliases the caller's
buffer.  The heap model makes buffers explicit.  A buffer is either live
(with its contents, one slot per allocated element) or freed; buffer
identifiers are indices into the store, and allocation appends.  Any access
to a freed or absent buffer, or out of bounds, is undefined behaviour in C
and yields `none`. -/

/-- A heap buffer: live with contents, or freed by `realloc`/`free`. -/
inductive Buf where
  | live (data : List String)
  | freed
  deriving Repr, DecidableEq

/-- The store: buffers indexed by their identifier; allocation appends. -/
structure Store where
  bufs : List Buf
  deriving Repr, DecidableEq

/-- `struct strarray` in the heap model: the `str` field is a possibly-NULL
pointer, i.e. an optional buffer identifier. -/
structure strarrayH where
  count : Nat
  size : Nat
  buf : Option Nat
  deriving Repr, DecidableEq

/-- The heap-model `empty_strarray`: zero-initialised, NULL buffer. -/
def emptyH : strarrayH := ⟨0, 0, none⟩

/-- Read slot `i` of buffer `b`; UB (`none`) if the buffer is freed, absent
or `i` is out of bounds. -/
def readBuf (st : Store) (b : Nat) (i : Nat) : Option String :=
  match st.bufs[b]? with
  | some (Buf.live data) => data[i]?
  | _ => none

/-- Write `s` into slot `i` of buffer `b`; UB (`none`) if the buffer is
freed, absent or `i` is out of bounds. -/
def writeBuf (st : Store) (b : Nat) (i : Nat) (s : String) : Option Store :=
  match st.bufs[b]? with
  | some (Buf.live data) =>
    if i < data.length then some ⟨st.bufs.set b (Buf.live (data.set i s))⟩ else none
  | _ => none

/-- `xrealloc` in the heap model.  `realloc(NULL, n)` allocates a fresh
buffer of `n` (uninitialised, modelled as `""`) slots.  For a live buffer
the contents move to a fresh buffer of `n` slots and the old block is
freed — the behaviour the C abstract machine permits, after which the old
pointer value is indeterminate.  Reallocating a freed/absent buffer is UB. -/
def xreallocH (st : Store) (b : Option Nat) (n : Nat) : Option (Store × Nat) :=
  match b with
  | none => some (⟨st.bufs ++ [Buf.live (List.replicate n "")]⟩, st.bufs.length)
  | some b =>
    match st.bufs[b]? with
    | some (Buf.live data) =>
      some (⟨(st.bufs.set b Buf.freed) ++
              [Buf.live (data.take n ++ List.replicate (n - data.length) "")]⟩,
            (st.bufs.set b Buf.freed).length)
    | _ => none

/-- `strarray_add` in the heap model: grow (via `xrealloc`) when
`count == size`, then store the string at slot `count` and increment
`count`.  Writing through a NULL `str` with `count < size` cannot arise for
well-formed arrays and is UB. -/
def strarray_addH (st : Store) (a : strarrayH) (s : String) :
    Option (Store × strarrayH) :=
  if a.count = a.size then
    let size' := if a.size = 0 then 16 else a.size * 2
    match xreallocH st a.buf size' with
    | none => none
    | some (st', b') =>
      match writeBuf st' b' a.count s with
      | none => none
      | some st'' => some (st'', ⟨a.count + 1, size', some b'⟩)
  else
    match a.buf with
    | none => none
    | some b =>
      match writeBuf st b a.count s with
      | none => none
      | some st' => some (st', ⟨a.count + 1, a.size, some b⟩)

/-- The loop of `strarray_addall` in the heap model: `added` was passed by
value, so the iteration keeps the snapshot buffer pointer `b` and the
snapshot count, while reads of `added.str[i]` go through `b` in the
*current* store. `k` counts the remaining iterations, `i` the next index. -/
def addallLoopH (b : Nat) : Store → strarrayH → Nat → Nat → Option (Store × strarrayH)
  | st, a, _, 0 => some (st, a)
  | st, a, i, k + 1 =>
    match readBuf st b i with
    | none => none
    | some s =>
      match strarray_addH st a s with
      | none => none
      | some (st', a') => addallLoopH b st' a' (i + 1) k

/-- `strarray_addall` in the heap model: `added` is a by-value snapshot of
the struct (count and buffer pointer).  With `added.count = 0` the loop
body never runs; a non-zero count with a NULL buffer is UB. -/
def strarray_addallH (st : Store) (a : strarrayH) (added : strarrayH) :
    Option (Store × strarrayH) :=
  match added.count, added.buf with
  | 0, _ => some (st, a)
  | k + 1, some b => addallLoopH b st a 0 (k + 1)
  | _ + 1, none => none

/-- `strarray_exists` in the heap model: scan the used slots. -/
def existsLoopH (st : Store) (b : Nat) (s : String) : Nat → Nat → Option Bool
  | _, 0 => some false
  | i, k + 1 =>
    match readBuf st b i with
    | none => none
    | some t => if t == s then some true else existsLoopH st b s (i + 1) k

/-- `strarray_exists` in the heap model. -/
def strarray_existsH (st : Store) (a : strarrayH) (s : String) : Option Bool :=
  match a.count, a.buf with
  | 0, _ => some false
  | k + 1, some b => existsLoopH st b s 0 (k + 1)
  | _ + 1, none => none

/-- `strarray_add_uniq` in the heap model. -/
def strarray_add_uniqH (st : Store) (a : strarrayH) (s : String) :
    Option (Store × strarrayH) :=
  match strarray_existsH st a s with
  | none => none
  | some true => some (st, a)
  | some false => strarray_addH st a s

/-- The used entries of a heap array, as seen in a given store (empty when
the buffer pointer is NULL or invalid). -/
def visibleH (st : Store) (a : strarrayH) : List String :=
  match a.buf with
  | none => []
  | some b =>
    match st.bufs[b]? with
    | some (Buf.live data) => data.take a.count
    | _ => []

/-! ## Auxiliary observers used to state the claims -/

/-- Number of `xrealloc` calls (capacity changes) performed while
`strarray_add`-ing the strings of `ss` in order: `strarray_add` reallocates
exactly when `count == size` on entry. -/
def addSeqReallocCount : strarray → List String → Nat
  | _, [] => 0
  | a, s :: ss =>
    (if a.count = a.size then 1 else 0) + addSeqReallocCount (strarray_add a s) ss

/-- The count/size evolution of `strarray_add` depends only on the numbers:
number of reallocations over `n` adds starting from `count = c`, `size = z`. -/
def reallocCountN : Nat → Nat → Nat → Nat
  | _, _, 0 => 0
  | c, z, n + 1 =>
    (if c = z then 1 else 0) +
      reallocCountN (c + 1) (if c = z then (if z = 0 then 16 else z * 2) else z) n

/-- Size (capacity) after `n` `strarray_add`s starting from `count = c`,
`size = z`. -/
def sizeN : Nat → Nat → Nat → Nat
  | _, z, 0 => z
  | c, z, n + 1 => sizeN (c + 1) (if c = z then (if z = 0 then 16 else z * 2) else z) n

/-- The serialization the spec describes for `strarray_tostring`:
`elements[0] + sep + elements[1] + ... + sep + elements[count-1]`, with the
separator inserted exactly `count - 1` times and never at the ends (written
from the spec's words, to be compared with `strarray_tostring`). -/
def join_spec (sep : String) : List String → String
  | [] => ""
  | [x] => x
  | x :: y :: rest => x ++ sep ++ join_spec sep (y :: rest)

/-- Helper: the `sep ++ element` tail blocks of a join. -/
def joinTail (sep : String) : List String → String
  | [] => ""
  | y :: rest => sep ++ y ++ joinTail sep rest

/-- An arbitrary interleaving of `strarray_add_uniq` (left) and
`strarray_addall_uniq` (right) steps, used to state that any array built
from the empty one by the uniq family alone is duplicate-free. -/
def applyUniqOps : strarray → List (String ⊕ strarray) → strarray
  | a, [] => a
  | a, Sum.inl s :: ops => applyUniqOps (strarray_add_uniq a s) ops
  | a, Sum.inr b :: ops => applyUniqOps (strarray_addall_uniq a b) ops

/-- Length-difference comparator, a concrete `Coherent`-style comparator
used to instantiate the binary-search theorem. -/
def lenCmp (x y : String) : Int := (x.length : Int) - (y.length : Int)

/-! ## Basic lemmas about the value model -/

theorem strarray_add_str (a : strarray) (s : String) :
    (strarray_add a s).str = a.str ++ [s] := rfl

theorem strarray_add_count (a : strarray) (s : String) :
    (strarray_add a s).count = a.count + 1 := rfl

theorem foldl_add_str (ss : List String) (a : strarray) :
    (ss.foldl strarray_add a).str = a.str ++ ss := by
  induction ss generalizing a with
  | nil => simp
  | cons s ss ih => simp [List.foldl_cons, ih, strarray_add]

theorem foldl_add_count (ss : List String) (a : strarray) :
    (ss.foldl strarray_add a).count = a.count + ss.length := by
  induction ss generalizing a with
  | nil => simp
  | cons s ss ih => simp [List.foldl_cons, ih, strarray_add]; omega

theorem foldl_add_size (ss : List String) (a : strarray) :
    (ss.foldl strarray_add a).size = sizeN a.count a.size ss.length := by
  induction ss generalizing a with
  | nil => rfl
  | cons s ss ih => simpa [List.foldl_cons, strarray_add, sizeN] using ih (strarray_add a s)

theorem addSeqReallocCount_eq (ss : List String) (a : strarray) :
    addSeqReallocCount a ss = reallocCountN a.count a.size ss.length := by
  induction ss generalizing a with
  | nil => rfl
  | cons s ss ih =>
    simpa [addSeqReallocCount, reallocCountN, strarray_add] using ih (strarray_add a s)

/-! ## Claims -/

/-- C1: for every array `a` and string `s`, after `strarray_add a s` the
membership test `strarray_exists` returns `true` for `s`, the `count` field
increases by exactly 1, `s` is the new last element, and every previously
stored element keeps its position (and hence its identity). -/
theorem C1_add_membership_count_last (a : strarray) (s : String) :
    strarray_exists (strarray_add a s) s = true ∧
    (strarray_add a s).count = a.count + 1 ∧
    (strarray_add a s).str.getLast? = some s ∧
    ∀ i, i < a.str.length → (strarray_add a s).str[i]? = a.str[i]? := by
  refine ⟨?_, rfl, ?_, ?_⟩
  · simp [strarray_exists, strarray_add]
  · simp [strarray_add, List.getLast?_concat]
  · intro i hi
    simp [strarray_add, List.getElem?_append, hi]

/-- C2: starting from the empty array, 17 consecutive `strarray_add`s
perform exactly two reallocations, the capacity is 0 before the first add,
16 after adds 1..16 and 32 after the 17th, and all 17 elements are stored
at indices 0..16 in insertion order. -/
theorem C2_growth_determinism (ss : List String) (h : ss.length = 17) :
    addSeqReallocCount empty_strarray ss = 2 ∧
    (∀ k, k ≤ 17 → ((ss.take k).foldl strarray_add empty_strarray).size
        = if k = 0 then 0 else if k ≤ 16 then 16 else 32) ∧
    (ss.foldl strarray_add empty_strarray).count = 17 ∧
    (ss.foldl strarray_add empty_strarray).str = ss := by
  refine ⟨?_, ?_, ?_, ?_⟩
  · rw [addSeqReallocCount_eq]
    show reallocCountN 0 0 ss.length = 2
    rw [h]
    decide
  · intro k hk
    have hlen : (ss.take k).length = k := by
      rw [List.length_take, h]
      omega
    rw [foldl_add_size, hlen]
    clear hlen
    revert hk
    revert k
    decide
  · rw [foldl_add_count, h]
    simp [empty_strarray]
  · rw [foldl_add_str]
    rfl

/-- C2 witness: the 17-fold add of `"x"` to the empty array. -/
theorem C2_growth_determinism_witness :
    addSeqReallocCount empty_strarray (List.replicate 17 "x") = 2 ∧
    ((List.replicate 17 "x").foldl strarray_add empty_strarray).count = 17 ∧
    ((List.replicate 17 "x").foldl strarray_add empty_strarray).size = 32 :=
  ⟨(C2_growth_determinism (List.replicate 17 "x") rfl).1,
   (C2_growth_determinism (List.replicate 17 "x") rfl).2.2.1,
   by
    have := (C2_growth_determinism (List.replicate 17 "x") rfl).2.1 17 (by decide)
    simpa using this⟩

/-- C3 counterexample: when `s` is already present, two successive
`strarray_add_uniq` calls leave `count` unchanged, not increased by 1: the
claim's universally quantified "+1" fails for `a = ["a"]`, `s = "a"`. -/
theorem C3_counterexample :
    (strarray_add_uniq (strarray_add_uniq (strarray_add empty_strarray "a") "a") "a").count
      ≠ (strarray_add empty_strarray "a").count + 1 := by decide

/-- C3 (amended): the second `strarray_add_uniq` call is always a no-op
(leaving the array, and hence the position of the first occurrence of `s`,
completely unchanged); and when `s` is not already present the two calls
together increase `count` by exactly 1, appending `s` once at the end. -/
theorem C3_add_uniq_idempotent (a : strarray) (s : String) :
    strarray_add_uniq (strarray_add_uniq a s) s = strarray_add_uniq a s ∧
    (strarray_exists a s = false →
      (strarray_add_uniq (strarray_add_uniq a s) s).count = a.count + 1 ∧
      (strarray_add_uniq a s).str = a.str ++ [s]) := by
  have hnoop : ∀ b : strarray, strarray_exists b s = true → strarray_add_uniq b s = b := by
    intro b hb
    simp [strarray_add_uniq, hb]
  have hex : strarray_exists (strarray_add_uniq a s) s = true := by
    by_cases h : strarray_exists a s
    · rw [hnoop a h]
      exact h
    · have h' : s ∉ a.str := by simpa [strarray_exists] using h
      simp [strarray_add_uniq, strarray_exists, strarray_add, h']
  refine ⟨hnoop _ hex, fun h => ⟨?_, ?_⟩⟩
  · rw [hnoop _ hex]
    simp [strarray_add_uniq, h, strarray_add]
  · simp [strarray_add_uniq, h, strarray_add]

/-- C3 witness: fresh insertion of `"x"` into the empty array. -/
theorem C3_add_uniq_idempotent_witness :
    strarray_add_uniq (strarray_add_uniq empty_strarray "x") "x"
        = strarray_add_uniq empty_strarray "x" ∧
    (strarray_add_uniq (strarray_add_uniq empty_strarray "x") "x").count
        = empty_strarray.count + 1 :=
  ⟨(C3_add_uniq_idempotent empty_strarray "x").1,
   ((C3_add_uniq_idempotent empty_strarray "x").2 (by decide)).1⟩

/-! ## Lemmas for the uniq family, the tokenizer and the joiner -/

theorem exists_eq_false_iff (a : strarray) (s : String) :
    strarray_exists a s = false ↔ s ∉ a.str := by
  simp only [strarray_exists, List.any_eq_false, beq_iff_eq]
  constructor
  · intro h hs
    exact h s hs rfl
  · intro h x hx hxs
    exact h (hxs ▸ hx)

theorem add_uniq_nodup (a : strarray) (s : String) (h : a.str.Nodup) :
    (strarray_add_uniq a s).str.Nodup := by
  by_cases hex : strarray_exists a s
  · simpa [strarray_add_uniq, hex] using h
  · have h' : s ∉ a.str := (exists_eq_false_iff a s).1 (by simpa using hex)
    simp [strarray_add_uniq, hex, strarray_add, List.nodup_append, h', h]

theorem foldl_add_uniq_nodup (l : List String) :
    ∀ a : strarray, a.str.Nodup → (l.foldl strarray_add_uniq a).str.Nodup := by
  induction l with
  | nil => intro a h; exact h
  | cons s l ih => intro a h; exact ih _ (add_uniq_nodup a s h)

theorem addall_uniq_nodup (a b : strarray) (h : a.str.Nodup) :
    (strarray_addall_uniq a b).str.Nodup :=
  foldl_add_uniq_nodup b.str a h

theorem applyUniqOps_nodup (ops : List (String ⊕ strarray)) :
    ∀ a : strarray, a.str.Nodup → (applyUniqOps a ops).str.Nodup := by
  induction ops with
  | nil => intro a h; exact h
  | cons op ops ih =>
    intro a h
    cases op with
    | inl s => exact ih _ (add_uniq_nodup a s h)
    | inr b => exact ih _ (addall_uniq_nodup a b h)

theorem strtokToks_ne_nil (delims : List Char) (cs : List Char) :
    ∀ acc : List Char, [] ∉ strtokToks delims cs acc := by
  induction cs with
  | nil =>
    intro acc
    simp only [strtokToks]
    split
    · simp
    · rename_i hne
      simp only [List.mem_singleton]
      intro hrev
      have hacc : acc = [] := List.reverse_eq_nil_iff.mp hrev.symm
      simp [hacc] at hne
  | cons c cs ih =>
    intro acc
    simp only [strtokToks]
    split
    · split
      · exact ih []
      · rename_i hne
        simp only [List.mem_cons]
        rintro (hrev | hmem)
        · have hacc : acc = [] := List.reverse_eq_nil_iff.mp hrev.symm
          simp [hacc] at hne
        · exact ih [] hmem
    · exact ih (c :: acc)

theorem strtokToks_all_delims (delims : List Char) :
    ∀ cs : List Char, (∀ c ∈ cs, c ∈ delims) → strtokToks delims cs [] = [] := by
  intro cs
  induction cs with
  | nil => intro _; simp [strtokToks]
  | cons c cs ih =>
    intro h
    have hc : c ∈ delims := h c (by simp)
    simp only [strtokToks, hc, if_true, List.isEmpty_nil]
    exact ih fun x hx => h x (by simp [hx])

theorem fromstring_str (s delim : String) :
    (strarray_fromstring s delim).str
      = (strtokToks delim.toList s.toList []).map String.mk := by
  unfold strarray_fromstring
  rw [← List.foldl_map, foldl_add_str]
  rfl

theorem fromstring_count (s delim : String) :
    (strarray_fromstring s delim).count
      = (strtokToks delim.toList s.toList []).length := by
  unfold strarray_fromstring
  rw [← List.foldl_map, foldl_add_count]
  simp [empty_strarray]

theorem foldl_joinTail (sep : String) (l : List String) :
    ∀ x : String, l.foldl (fun acc t => acc ++ sep ++ t) x = x ++ joinTail sep l := by
  induction l with
  | nil => intro x; simp [joinTail]
  | cons y r ih =>
    intro x
    simp only [List.foldl_cons, joinTail, ih]
    simp [String.append_assoc]

theorem join_spec_cons (sep : String) (r : List String) :
    ∀ y : String, join_spec sep (y :: r) = y ++ joinTail sep r := by
  induction r with
  | nil => intro y; simp [join_spec, joinTail]
  | cons z r' ih =>
    intro y
    simp only [join_spec, joinTail, ih]
    simp [String.append_assoc]

/-- C5: `strarray_fromstring` produces no empty tokens (consecutive,
leading and trailing delimiters collapse); an input all of whose characters
are delimiters — in particular the empty input — yields `count = 0`; and
`strarray_fromstring "a:b::c" ":"` is exactly `["a", "b", "c"]`. -/
theorem C5_split_no_empty_tokens (s delim : String) :
    (∀ t ∈ (strarray_fromstring s delim).str, t ≠ "") ∧
    ((∀ c ∈ s.toList, c ∈ delim.toList) → (strarray_fromstring s delim).count = 0) ∧
    (strarray_fromstring "a:b::c" ":").str = ["a", "b", "c"] := by
  refine ⟨?_, ?_, ?_⟩
  · intro t ht
    rw [fromstring_str] at ht
    obtain ⟨tok, htok, rfl⟩ := List.mem_map.mp ht
    intro hcontra
    have htok0 : tok = [] := by simpa using congrArg String.data hcontra
    subst htok0
    exact strtokToks_ne_nil delim.toList s.toList [] htok
  · intro h
    rw [fromstring_count, strtokToks_all_delims delim.toList s.toList h]
    rfl
  · decide

/-- C5 witness: an all-delimiter input yields `count = 0`, and the spec's
concrete example splits as claimed. -/
theorem C5_split_no_empty_tokens_witness :
    (strarray_fromstring "::" ":").count = 0 ∧
    (strarray_fromstring "a:b::c" ":").str = ["a", "b", "c"] :=
  ⟨(C5_split_no_empty_tokens "::" ":").2.1 (by decide),
   (C5_split_no_empty_tokens "x" "y").2.2⟩

/-- C6: for every well-formed array, `strarray_tostring` returns exactly
`elements[0] ++ sep ++ elements[1] ++ ... ++ sep ++ elements[count-1]`
(the `join_spec` serialization written from the spec, with the separator
inserted exactly `count - 1` times and never at the ends), and the empty
array gives the empty string of length 0. -/
theorem C6_join_spec (a : strarray) (sep : String) (hwf : a.count = a.str.length) :
    strarray_tostring a sep = join_spec sep a.str := by
  unfold strarray_tostring
  by_cases h : a.count = 0
  · have hnil : a.str = [] := by
      rw [h] at hwf
      exact (List.length_eq_zero.mp hwf.symm)
    simp [h, hnil, join_spec]
  · have hne : a.str ≠ [] := by
      intro hnil
      rw [hnil] at hwf
      simp at hwf
      exact h hwf
    obtain ⟨x, rest, hstr⟩ := List.exists_cons_of_ne_nil hne
    rw [if_neg h, hstr]
    simp only [List.drop_succ_cons, List.drop_zero, List.headD_cons]
    rw [foldl_joinTail, join_spec_cons]

/-- C6 witness: join of a concrete three-element array. -/
theorem C6_join_spec_witness :
    strarray_tostring ⟨3, 16, ["a", "b", "c"]⟩ "," = join_spec "," ["a", "b", "c"] ∧
    strarray_tostring ⟨0, 0, []⟩ "/" = join_spec "/" [] :=
  ⟨C6_join_spec ⟨3, 16, ["a", "b", "c"]⟩ "," rfl,
   C6_join_spec ⟨0, 0, []⟩ "/" rfl⟩

/-- C10: the uniq family preserves duplicate-freedom: `strarray_add_uniq`
and `strarray_addall_uniq` (with any source array, duplicates included)
keep the element list `Nodup`, and hence any array built from
`empty_strarray` by any sequence of these operations is duplicate-free. -/
theorem C10_uniq_preserves_nodup :
    (∀ (a : strarray) (s : String), a.str.Nodup → (strarray_add_uniq a s).str.Nodup) ∧
    (∀ a b : strarray, a.str.Nodup → (strarray_addall_uniq a b).str.Nodup) ∧
    (∀ ops : List (String ⊕ strarray), (applyUniqOps empty_strarray ops).str.Nodup) :=
  ⟨add_uniq_nodup, addall_uniq_nodup,
   fun ops => applyUniqOps_nodup ops empty_strarray List.nodup_nil⟩

/-- C10 witness: re-adding a present string and appending a source with an
internal duplicate both keep a concrete array duplicate-free. -/
theorem C10_uniq_preserves_nodup_witness :
    (strarray_add_uniq ⟨1, 16, ["a"]⟩ "a").str.Nodup ∧
    (strarray_addall_uniq ⟨1, 16, ["a"]⟩ ⟨3, 16, ["b", "a", "b"]⟩).str.Nodup :=
  ⟨C10_uniq_preserves_nodup.1 ⟨1, 16, ["a"]⟩ "a" (by decide),
   C10_uniq_preserves_nodup.2.1 ⟨1, 16, ["a"]⟩ ⟨3, 16, ["b", "a", "b"]⟩ (by decide)⟩

/-! ## Lemmas for binary search and the strmake loop -/

theorem bsearchGo_sound (cmp : String → String → Int) (key : String) (l : List String) :
    ∀ (fuel lo hi : Nat) (x : String), hi ≤ l.length →
      bsearchGo cmp key l fuel lo hi = some x → x ∈ l ∧ cmp key x = 0 := by
  intro fuel
  induction fuel with
  | zero =>
    intro lo hi x _ h
    simp [bsearchGo] at h
  | succ fuel ih =>
    intro lo hi x hhi h
    simp only [bsearchGo] at h
    split at h
    · rename_i hlohi
      split at h
      · exact ih lo ((lo + hi) / 2) x (by omega) h
      · split at h
        · exact ih ((lo + hi) / 2 + 1) hi x hhi h
        · rename_i hc1 hc2
          have hmid : (lo + hi) / 2 < l.length := by omega
          rw [List.getD_eq_getElem l "" hmid] at h hc1 hc2
          obtain rfl : l[(lo + hi) / 2] = x := by simpa using h
          exact ⟨List.getElem_mem _, by omega⟩
    · exact absurd h (by simp)

theorem bsearchGo_complete (cmp : String → String → Int) (key : String) (l : List String)
    (htrans : ∀ x y z, cmp x y ≤ 0 → cmp y z ≤ 0 → cmp x z ≤ 0)
    (hstrict : ∀ x y z, cmp x y < 0 → cmp y z ≤ 0 → cmp x z < 0)
    (hsorted : ∀ i j, i < j → j < l.length → cmp (l.getD i "") (l.getD j "") ≤ 0) :
    ∀ (fuel lo hi k : Nat), hi ≤ l.length → hi - lo ≤ fuel →
      lo ≤ k → k < hi → cmp key (l.getD k "") = 0 →
      ∃ x, bsearchGo cmp key l fuel lo hi = some x ∧ cmp key x = 0 := by
  intro fuel
  induction fuel with
  | zero =>
    intro lo hi k _ hf hlo hhi _
    omega
  | succ fuel ih =>
    intro lo hi k hhil hf hlo hk hkey
    have hlohi : lo < hi := lt_of_le_of_lt hlo hk
    simp only [bsearchGo, if_pos hlohi]
    by_cases hc1 : cmp key (l.getD ((lo + hi) / 2) "") < 0
    · rw [if_pos hc1]
      have hkmid : k < (lo + hi) / 2 := by
        by_contra hge
        push_neg at hge
        rcases Nat.eq_or_lt_of_le hge with heq | hlt
        · subst heq
          omega
        · have hs := hsorted ((lo + hi) / 2) k hlt (by omega)
          have := hstrict key _ _ hc1 hs
          omega
      exact ih lo ((lo + hi) / 2) k (by omega) (by omega) hlo hkmid hkey
    · rw [if_neg hc1]
      by_cases hc2 : 0 < cmp key (l.getD ((lo + hi) / 2) "")
      · rw [if_pos hc2]
        have hkmid : (lo + hi) / 2 < k := by
          by_contra hge
          push_neg at hge
          rcases Nat.eq_or_lt_of_le hge with heq | hlt
          · subst heq
            omega
          · have hs := hsorted k ((lo + hi) / 2) hlt (by omega)
            have := htrans key _ _ (le_of_eq hkey) hs
            omega
        exact ih ((lo + hi) / 2 + 1) hi k hhil (by omega) (by omega) hk hkey
      · rw [if_neg hc2]
        exact ⟨_, rfl, by omega⟩

theorem strmakeLoop_ok (vsn : Nat → Int) (out : String) (hm : vsnprintfModel vsn out) :
    ∀ (fuel size g : Nat), 1 ≤ size → out.length < size + fuel → fuel < g →
      strmakeLoop vsn out g size = some out := by
  intro fuel
  induction fuel with
  | zero =>
    intro size g h1 h2 h3
    obtain ⟨g', rfl⟩ : ∃ g', g = g' + 1 := ⟨g - 1, by omega⟩
    simp only [strmakeLoop]
    rcases hm size with hL | ⟨hneg, hle⟩
    · rw [hL, if_neg (by omega : ¬((out.length : Int) = -1))]
      rw [if_neg (by simp only [Int.toNat_natCast]; omega : ¬(size ≤ (out.length : Int).toNat))]
    · exfalso
      omega
  | succ fuel ih =>
    intro size g h1 h2 h3
    obtain ⟨g', rfl⟩ : ∃ g', g = g' + 1 := ⟨g - 1, by omega⟩
    simp only [strmakeLoop]
    rcases hm size with hL | ⟨hneg, hle⟩
    · rw [hL, if_neg (by omega : ¬((out.length : Int) = -1))]
      by_cases hsz : size ≤ out.length
      · rw [if_pos (by simpa only [Int.toNat_natCast] using hsz)]
        simp only [Int.toNat_natCast]
        exact ih (out.length + 1) g' (by omega) (by omega) (by omega)
      · rw [if_neg (by simp only [Int.toNat_natCast]; omega)]
    · rw [hneg, if_pos rfl]
      exact ih (size * 2) g' (by omega) (by omega) (by omega)

/-- C7: under the precondition that the array is ordered consistently with
the comparator (`Pairwise`-sortedness plus the consistency the C standard
demands of `compar`), `strarray_bsearch` returns, for every key comparing
equal to some element, an element of the array comparing equal to the key;
and for every key comparing equal to no element it returns the `NULL`
sentinel (`none`). -/
theorem C7_bsearch_correct (a : strarray) (key : String) (cmp : String → String → Int)
    (hwf : a.count = a.str.length)
    (htrans : ∀ x y z, cmp x y ≤ 0 → cmp y z ≤ 0 → cmp x z ≤ 0)
    (hstrict : ∀ x y z, cmp x y < 0 → cmp y z ≤ 0 → cmp x z < 0)
    (hsorted : a.str.Pairwise (fun x y => cmp x y ≤ 0)) :
    ((∃ x ∈ a.str, cmp key x = 0) →
      ∃ x, strarray_bsearch a key cmp = some x ∧ x ∈ a.str ∧ cmp key x = 0) ∧
    ((∀ x ∈ a.str, cmp key x ≠ 0) → strarray_bsearch a key cmp = none) := by
  have hsorted' : ∀ i j, i < j → j < a.str.length →
      cmp (a.str.getD i "") (a.str.getD j "") ≤ 0 := by
    intro i j hij hj
    have hi : i < a.str.length := lt_trans hij hj
    rw [List.getD_eq_getElem a.str "" hi, List.getD_eq_getElem a.str "" hj]
    exact (List.pairwise_iff_getElem.mp hsorted) i j hi hj hij
  constructor
  · rintro ⟨x, hx, hcmp⟩
    obtain ⟨k, hk, hkx⟩ := List.mem_iff_getElem.mp hx
    have hcount : a.count ≠ 0 := by omega
    unfold strarray_bsearch
    rw [if_pos hcount]
    have hkey : cmp key (a.str.getD k "") = 0 := by
      rw [List.getD_eq_getElem a.str "" hk, hkx]
      exact hcmp
    obtain ⟨y, hy, hycmp⟩ :=
      bsearchGo_complete cmp key a.str htrans hstrict hsorted' a.count 0 a.count k
        (le_of_eq hwf) (by omega) (Nat.zero_le k) (by omega) hkey
    obtain ⟨hmem, _⟩ := bsearchGo_sound cmp key a.str a.count 0 a.count y (le_of_eq hwf) hy
    exact ⟨y, hy, hmem, hycmp⟩
  · intro hnone
    by_cases hcount : a.count = 0
    · simp [strarray_bsearch, hcount]
    · unfold strarray_bsearch
      rw [if_pos hcount]
      cases hres : bsearchGo cmp key a.str a.count 0 a.count with
      | none => rfl
      | some x =>
        obtain ⟨hmem, hzero⟩ :=
          bsearchGo_sound cmp key a.str a.count 0 a.count x (le_of_eq hwf) hres
        exact absurd hzero (hnone x hmem)

/-- C7 witness: searching a concrete sorted array with the length
comparator finds no element for an absent key. -/
theorem C7_bsearch_correct_witness :
    strarray_bsearch ⟨2, 16, ["a", "bb"]⟩ "zzz" lenCmp = none :=
  (C7_bsearch_correct ⟨2, 16, ["a", "bb"]⟩ "zzz" lenCmp rfl
      (fun x y z h1 h2 => by simp only [lenCmp] at h1 h2 ⊢; omega)
      (fun x y z h1 h2 => by simp only [lenCmp] at h1 h2 ⊢; omega)
      (by simp only [List.pairwise_cons, List.mem_singleton, List.Pairwise.nil]
          exact ⟨fun y hy => by subst hy; decide, by simp⟩)).2
    (by decide)

/-- C9: for every format/argument pair on which the formatting engine
produces a finite output (`vsnprintfModel`), the `strmake` retry loop —
buffer starting at 100 bytes, doubled on a `-1` failure signal, set to the
exact required size when the needed length is reported — terminates within
any `out.length + 2` iterations and returns exactly the rendered output. -/
theorem C9_strmake_terminates (vsn : Nat → Int) (out : String)
    (hm : vsnprintfModel vsn out) :
    ∀ g : Nat, out.length + 2 ≤ g → strmakeLoop vsn out g 100 = some out := by
  intro g hg
  exact strmakeLoop_ok vsn out hm (out.length + 1) 100 g (by omega) (by omega) (by omega)

/-- C9 witness: an engine that fails while the buffer is too small and then
reports length 5 renders `"hello"` within the fuel bound. -/
theorem C9_strmake_terminates_witness :
    strmakeLoop (fun size => if size ≤ 5 then -1 else 5) "hello" 7 100 = some "hello" :=
  C9_strmake_terminates (fun size => if size ≤ 5 then -1 else 5) "hello"
    (by
      intro size
      by_cases h : size ≤ 5
      · exact Or.inr ⟨by simp [h], by simpa [show "hello".length = 5 from rfl] using h⟩
      · exact Or.inl (by simp [h, show "hello".length = 5 from rfl]))
    7 (by simp [show "hello".length = 5 from rfl])

/-- C4: no add-family operation mutates a zero-capacity array in place:
inserting into a zero-capacity array (count 0, size 0, NULL buffer — the
shared `empty_strarray` value) allocates a fresh buffer, leaves every
pre-existing buffer of the store untouched, and returns a new array value
referencing only the fresh buffer; the zero-capacity value itself
references no storage at all, so it is unchanged by the operation. -/
theorem C4_no_inplace_mutation_of_empty (st : Store) (a : strarrayH) (s : String)
    (hc : a.count = 0) (hz : a.size = 0) (hb : a.buf = none) :
    ∃ st' : Store,
      strarray_addH st a s = some (st', ⟨1, 16, some st.bufs.length⟩) ∧
      strarray_add_uniqH st a s = some (st', ⟨1, 16, some st.bufs.length⟩) ∧
      (∀ j, j < st.bufs.length → st'.bufs[j]? = st.bufs[j]?) ∧
      st.bufs.length < st'.bufs.length := by
  obtain ⟨ac, az, ab⟩ := a
  simp only at hc hz hb
  subst hc
  subst hz
  subst hb
  have hread : (st.bufs ++ [Buf.live (List.replicate 16 "")])[st.bufs.length]?
      = some (Buf.live (List.replicate 16 "")) := by
    rw [List.getElem?_append_right (le_refl _), Nat.sub_self]
    rfl
  have hadd : strarray_addH st ⟨0, 0, none⟩ s =
      some (⟨(st.bufs ++ [Buf.live (List.replicate 16 "")]).set st.bufs.length
               (Buf.live ((List.replicate 16 "").set 0 s))⟩,
            ⟨1, 16, some st.bufs.length⟩) := by
    simp only [strarray_addH, xreallocH, writeBuf, hread]
    norm_num
  refine ⟨_, hadd, ?_, ?_, ?_⟩
  · simp only [strarray_add_uniqH, strarray_existsH]
    exact hadd
  · intro j hj
    simp only []
    rw [List.getElem?_set_ne (by omega), List.getElem?_append, if_pos hj]
  · simp

/-- C4 witness: adding to the (shared) empty array value in a store holding
one pre-existing buffer. -/
theorem C4_no_inplace_mutation_of_empty_witness :
    ∃ st' : Store,
      strarray_addH ⟨[Buf.live ["p"]]⟩ emptyH "x" = some (st', ⟨1, 16, some 1⟩) ∧
      strarray_add_uniqH ⟨[Buf.live ["p"]]⟩ emptyH "x" = some (st', ⟨1, 16, some 1⟩) ∧
      (∀ j, j < 1 → st'.bufs[j]? = (⟨[Buf.live ["p"]]⟩ : Store).bufs[j]?) ∧
      1 < st'.bufs.length :=
  C4_no_inplace_mutation_of_empty ⟨[Buf.live ["p"]]⟩ emptyH "x" rfl rfl rfl

/-- C1 witness: concrete instance of the add/membership/position theorem. -/
theorem C1_add_membership_count_last_witness :
    strarray_exists (strarray_add ⟨1, 16, ["a"]⟩ "b") "b" = true ∧
    (strarray_add ⟨1, 16, ["a"]⟩ "b").str[0]? = (⟨1, 16, ["a"]⟩ : strarray).str[0]? :=
  ⟨(C1_add_membership_count_last ⟨1, 16, ["a"]⟩ "b").1,
   (C1_add_membership_count_last ⟨1, 16, ["a"]⟩ "b").2.2.2 0 (by decide)⟩

/-- Invariant of the `strarray_addall(&a, a)` loop in the safe (no
reallocation) case: at step `i` of `c`, the array has grown to `c + i`
entries in the shared live buffer `b`, whose first `c + i` slots hold the
original `c` elements followed by the first `i` of them again. -/
theorem addallLoopH_self (b : Nat) (c z : Nat) (orig : List String)
    (hc1 : 1 ≤ c) (hcz : 2 * c ≤ z) (horig : orig.length = c) :
    ∀ (k i : Nat) (st : Store) (data : List String),
      i + k = c →
      st.bufs[b]? = some (Buf.live data) →
      data.length = z →
      data.take (c + i) = orig ++ orig.take i →
      ∃ st' data',
        addallLoopH b st ⟨c + i, z, some b⟩ i k = some (st', ⟨c + c, z, some b⟩) ∧
        st'.bufs[b]? = some (Buf.live data') ∧
        data'.length = z ∧
        data'.take (c + c) = orig ++ orig ∧
        (∀ j, j ≠ b → st'.bufs[j]? = st.bufs[j]?) := by
  intro k
  induction k with
  | zero =>
    intro i st data hik hlive hlen htake
    obtain rfl : i = c := by omega
    refine ⟨st, data, rfl, hlive, hlen, ?_, fun j _ => rfl⟩
    rw [htake, ← horig, List.take_length]
  | succ k ih =>
    intro i st data hik hlive hlen htake
    have hic : i < c := by omega
    have hb_lt : b < st.bufs.length := (List.getElem?_eq_some.mp hlive).1
    have hreadval : data[i]? = orig[i]? := by
      calc data[i]? = (data.take (c + i))[i]? := by
              rw [List.getElem?_take, if_pos (by omega)]
        _ = (orig ++ orig.take i)[i]? := by rw [htake]
        _ = orig[i]? := by rw [List.getElem?_append, if_pos (by omega)]
    obtain ⟨s, hs⟩ : ∃ s, orig[i]? = some s :=
      ⟨orig.get ⟨i, by omega⟩, List.getElem?_eq_getElem (by omega)⟩
    have hwrite_lt : c + i < data.length := by omega
    have hne : ¬(c + i = z) := by omega
    have hset_live : (st.bufs.set b (Buf.live (data.set (c + i) s)))[b]?
        = some (Buf.live (data.set (c + i) s)) := List.getElem?_set_self hb_lt
    have htake' : (data.set (c + i) s).take (c + (i + 1))
        = orig ++ orig.take (i + 1) := by
      have h1 : (data.set (c + i) s).take (c + i + 1)
          = (data.set (c + i) s).take (c + i) ++ [s] := by
        rw [List.take_succ, List.getElem?_set_self hwrite_lt]
        rfl
      have h2 : (data.set (c + i) s).take (c + i) = data.take (c + i) := by
        rw [List.set_take]
        exact List.set_eq_of_length_le (by rw [List.length_take]; omega)
      have h3 : orig.take (i + 1) = orig.take i ++ [s] := by
        rw [List.take_succ, hs]
        rfl
      show (data.set (c + i) s).take (c + i + 1) = _
      rw [h1, h2, htake, h3, List.append_assoc]
    obtain ⟨st', data', hloop, hl1, hl2, hl3, hl4⟩ :=
      ih (i + 1) ⟨st.bufs.set b (Buf.live (data.set (c + i) s))⟩ (data.set (c + i) s)
        (by omega) hset_live (by rw [List.length_set]; exact hlen) htake'
    refine ⟨st', data', ?_, hl1, hl2, hl3, ?_⟩
    · simp only [addallLoopH, readBuf, hlive, hreadval, hs, strarray_addH, hne,
        if_false, writeBuf, hwrite_lt, if_true]
      exact hloop
    · intro j hj
      rw [hl4 j hj]
      exact List.getElem?_set_ne (Ne.symm hj)

/-- C8 counterexample: for a full array (16 elements, capacity 16) the
self-append `strarray_addall(&a, a)` reallocates on the first iteration,
freeing the buffer that the by-value snapshot `added.str` still points to;
the second iteration then reads through the freed buffer — undefined
behaviour (`none`), not the claimed doubled array.  The claim as stated
("for every array a") is therefore false on the code. -/
theorem C8_counterexample :
    strarray_addallH ⟨[Buf.live (List.replicate 16 "x")]⟩ ⟨16, 16, some 0⟩
        ⟨16, 16, some 0⟩ = none := by
  decide

/-- C8 (amended): self-append is well-defined whenever no reallocation can
occur during the loop, i.e. when twice the element count fits in the
capacity (which holds in particular for `count = 0`).  Then the iteration
covers exactly the original count (the by-value snapshot), and afterwards
the array holds its original element sequence followed by a second copy of
it, with `count` exactly doubled, all other buffers untouched. -/
theorem C8_self_append_safe (st : Store) (a : strarrayH)
    (hwf : (a.buf = none ∧ a.count = 0 ∧ a.size = 0) ∨
           (∃ b data, a.buf = some b ∧ st.bufs[b]? = some (Buf.live data) ∧
             data.length = a.size))
    (hsafe : 2 * a.count ≤ a.size) :
    ∃ st' a',
      strarray_addallH st a a = some (st', a') ∧
      a'.count = 2 * a.count ∧ a'.size = a.size ∧ a'.buf = a.buf ∧
      visibleH st' a' = visibleH st a ++ visibleH st a ∧
      (∀ j, a.buf ≠ some j → st'.bufs[j]? = st.bufs[j]?) := by
  rcases hwf with ⟨hb, hc, hz⟩ | ⟨b, data, hb, hlive, hlen⟩
  · refine ⟨st, a, ?_, by omega, rfl, rfl, ?_, fun j _ => rfl⟩
    · simp [strarray_addallH, hc]
    · simp [visibleH, hb]
  · by_cases hc0 : a.count = 0
    · refine ⟨st, a, ?_, by omega, rfl, rfl, ?_, fun j _ => rfl⟩
      · simp [strarray_addallH, hc0]
      · simp [visibleH, hb, hlive, hc0]
    · obtain ⟨ac, az, ab⟩ := a
      simp only at hb hlive hlen hsafe hc0 ⊢
      subst hb
      obtain ⟨st', data', hloop, hl1, hl2, hl3, hl4⟩ :=
        addallLoopH_self b ac az (data.take ac) (by omega) hsafe
          (by rw [List.length_take, hlen]; omega)
          ac 0 st data (by omega) hlive hlen (by simp)
      obtain ⟨c', rfl⟩ : ∃ c', ac = c' + 1 := ⟨ac - 1, by omega⟩
      refine ⟨st', ⟨c' + 1 + (c' + 1), az, some b⟩, ?_, ?_, rfl, rfl, ?_, ?_⟩
      · simp only [strarray_addallH]
        exact hloop
      · show c' + 1 + (c' + 1) = 2 * (c' + 1)
        omega
      · simp only [visibleH, hl1, hlive]
        exact hl3
      · intro j hj
        exact hl4 j fun h => hj (by rw [h])

/-- C8 witness: safe self-append of a 2-element array with capacity 4. -/
theorem C8_self_append_safe_witness :
    ∃ st' a',
      strarray_addallH ⟨[Buf.live ["a", "b", "c", "d"]]⟩ ⟨2, 4, some 0⟩
          ⟨2, 4, some 0⟩ = some (st', a') ∧
      a'.count = 2 * (2 : Nat) ∧ a'.size = 4 ∧ a'.buf = some 0 ∧
      visibleH st' a' = visibleH ⟨[Buf.live ["a", "b", "c", "d"]]⟩ ⟨2, 4, some 0⟩
          ++ visibleH ⟨[Buf.live ["a", "b", "c", "d"]]⟩ ⟨2, 4, some 0⟩ ∧
      (∀ j, (some 0 : Option Nat) ≠ some j →
        st'.bufs[j]? = (⟨[Buf.live ["a", "b", "c", "d"]]⟩ : Store).bufs[j]?) :=
  C8_self_append_safe ⟨[Buf.live ["a", "b", "c", "d"]]⟩ ⟨2, 4, some 0⟩
    (Or.inr ⟨0, ["a", "b", "c", "d"], rfl, rfl, rfl⟩) (by decide)

end WineTools
